import Mathlib

/-!
# Verification of the nenupytf decoding / selection / Stokes-reconstruction engine

Shallow embedding of the parts of the `nenupytf` package that the spec's
claims are about, together with theorems settling each claim.

Conventions:
* numpy float arrays are embedded as functions into `ℚ` (the formulas under
  verification are exact pointwise arithmetic, no rounding is at stake);
* numpy exceptions become `Except String` results;
* in-place mutation of a caller-supplied Python list is made explicit by
  returning the caller's list after the call next to the stored value.
-/

/- ===================== Stokes reconstruction (stokes/stokes.py) ============ -/

/-- The dual-polarization FFT cross-products of one lane file, as decoded by
`LaneDSpec` (`stokes/stokes.py`): `fft0` and `fft1` are 5-axis float arrays
indexed by time block, channel, time-in-block, frequency-in-channel and a
final axis of length 2.  Embedded as total functions into `ℚ`. -/
structure LaneRawData where
  fft0 : ℕ → ℕ → ℕ → ℕ → Fin 2 → ℚ
  fft1 : ℕ → ℕ → ℕ → ℕ → Fin 2 → ℚ

/-- `a[t0:_, c0:_]`: a 2-D slice on the two leading (time-block, channel)
axes, embedded as an index offset. -/
def arraySlice (a : ℕ → ℕ → ℕ → ℕ → Fin 2 → ℚ) (t0 c0 : ℕ) :
    ℕ → ℕ → ℕ → ℕ → Fin 2 → ℚ :=
  fun t c s f k => a (t0 + t) (c0 + c) s f k

/-- `Stokes_I.__getitem__`: `np.sum(self.fft0[slice_val], axis=4)`, the sum
over the final length-2 axis. -/
def Stokes_I (d : LaneRawData) (t0 c0 : ℕ) : ℕ → ℕ → ℕ → ℕ → ℚ :=
  fun t c s f => ∑ k : Fin 2, arraySlice d.fft0 t0 c0 t c s f k

/-- `Stokes_Q.__getitem__`: `selection[..., 0] - selection[..., 1]` on
`fft0[slice_val]`. -/
def Stokes_Q (d : LaneRawData) (t0 c0 : ℕ) : ℕ → ℕ → ℕ → ℕ → ℚ :=
  fun t c s f => arraySlice d.fft0 t0 c0 t c s f 0 - arraySlice d.fft0 t0 c0 t c s f 1

/-- `Stokes_U.__getitem__`: `selection[..., 0] * 2` on `fft1[slice_val]`. -/
def Stokes_U (d : LaneRawData) (t0 c0 : ℕ) : ℕ → ℕ → ℕ → ℕ → ℚ :=
  fun t c s f => arraySlice d.fft1 t0 c0 t c s f 0 * 2

/-- `Stokes_V.__getitem__`: `selection[..., 1] * (-2)` on `fft1[slice_val]`. -/
def Stokes_V (d : LaneRawData) (t0 c0 : ℕ) : ℕ → ℕ → ℕ → ℕ → ℚ :=
  fun t c s f => arraySlice d.fft1 t0 c0 t c s f 1 * (-2)

/-- `CrossXX.__getitem__`: `selection[..., 0] * 2` on `fft0[slice_val]`. -/
def CrossXX (d : LaneRawData) (t0 c0 : ℕ) : ℕ → ℕ → ℕ → ℕ → ℚ :=
  fun t c s f => arraySlice d.fft0 t0 c0 t c s f 0 * 2

/-- `CrossYY.__getitem__`: `selection[..., 1] * 2` on `fft0[slice_val]`. -/
def CrossYY (d : LaneRawData) (t0 c0 : ℕ) : ℕ → ℕ → ℕ → ℕ → ℚ :=
  fun t c s f => arraySlice d.fft0 t0 c0 t c s f 1 * 2

/-- The string dispatch of `NenuStokes.__getitem__` (before `correct` is
applied) for the seven real-valued kinds.  The Stokes string has already been
lowercased by the `stokes` setter.  `argxy` and `phasexy` are handled by
`crossXYoperand` below because their final step (`np.abs` / `np.angle` of a
complex array) lives in numpy, outside this repository's arithmetic. -/
def nenuStokesRaw (d : LaneRawData) (stokes : String) (t0 c0 : ℕ) :
    Option (ℕ → ℕ → ℕ → ℕ → ℚ) :=
  if stokes = "i" then some (Stokes_I d t0 c0)
  else if stokes = "q" then some (Stokes_Q d t0 c0)
  else if stokes = "u" then some (Stokes_U d t0 c0)
  else if stokes = "v" then some (Stokes_V d t0 c0)
  else if stokes = "fracv" then
    some (fun t c s f => Stokes_V d t0 c0 t c s f / Stokes_I d t0 c0 t c s f)
  else if stokes = "xx" then some (CrossXX d t0 c0)
  else if stokes = "yy" then some (CrossYY d t0 c0)
  else none

/-- For `stokes in {argxy, phasexy}`, `NenuStokes.__getitem__` computes
`re = Stokes_U(...)[slice]`, `im = Stokes_V(...)[slice]` and returns
`np.abs(re + 1j * im)` resp. `np.angle(re + 1j * im)`.  This definition is the
complex operand `re + 1j * im` of those two numpy calls, as a pair
(real part, imaginary part). -/
def crossXYoperand (d : LaneRawData) (t0 c0 : ℕ) : ℕ → ℕ → ℕ → ℕ → ℚ × ℚ :=
  fun t c s f => (Stokes_U d t0 c0 t c s f, Stokes_V d t0 c0 t c s f)

/-- A synthetic raw-data block in which every `fft0` entry is `x` on the first
component of the last axis and `y` on the second, and `fft1` is zero. -/
def rawConstTest (x y : ℚ) : LaneRawData :=
  ⟨fun _ _ _ _ k => if k = 0 then x else y, fun _ _ _ _ _ => 0⟩

/- ===================== Beamlet half-swap (NenuStokes.correct) ============== -/

/-- The beamlet half-swap of `NenuStokes.correct`: the 2-D time-frequency
array is reshaped to `(n_times, n_freqs/fftlen, 2, fftlen/2)`, the axis of
length 2 is reversed (`[:, :, ::-1, :]`), and the result is flattened back.
On the flat frequency index `f` this reads, with `c = f / fftlen`,
`r = f % fftlen`, `h = r / (fftlen/2)` (which half), `p = r % (fftlen/2)`
(position in the half), the entry at channel `c`, half `1 - h`, position `p`. -/
def beamletSwap (fftlen : ℕ) (d : ℕ → ℕ → ℚ) : ℕ → ℕ → ℚ :=
  fun t f =>
    d t (f / fftlen * fftlen + (1 - f % fftlen / (fftlen / 2)) * (fftlen / 2)
      + f % fftlen % (fftlen / 2))

/-- The entry of `NenuStokes.correct` guarding the half-swap:
`if self.fftlen % 2. != 0.0: raise ValueError` (the spec's
`ConfigurationError`), otherwise the half-swap is performed. -/
def nenuCorrectSwap (fftlen : ℕ) (d : ℕ → ℕ → ℚ) : Except String (ℕ → ℕ → ℚ) :=
  if fftlen % 2 ≠ 0 then .error "Problem with fftlen value"
  else .ok (beamletSwap fftlen d)

/-- Division/remainder of `c * n + s` for `s < n`. -/
theorem nat_block_decomp (n c s : ℕ) (hs : s < n) :
    (c * n + s) / n = c ∧ (c * n + s) % n = s := by
  have hn : 0 < n := Nat.lt_of_le_of_lt (Nat.zero_le s) hs
  constructor
  · rw [Nat.add_comm, Nat.add_mul_div_right _ _ hn, Nat.div_eq_of_lt hs, Nat.zero_add]
  · rw [Nat.add_comm, Nat.add_mul_mod_self_right, Nat.mod_eq_of_lt hs]

/-- Claim C1: for every raw dual-polarization block slice, the Stokes/cross
reconstruction of `NenuStokes.__getitem__` is the fixed point-wise formula of
its kind: I is `fft0[...,0] + fft0[...,1]`, Q is `fft0[...,0] - fft0[...,1]`,
U is `2*fft1[...,0]`, V is `-2*fft1[...,1]`, fracV is `V/I`, XX is
`2*fft0[...,0]`, YY is `2*fft0[...,1]`, and argXY/phaseXY are the numpy
abs/angle of the complex operand `U + i*V`; in particular on input with
`fft0[...,0] = fft0[...,1] = 1` Stokes I is `2` everywhere and Q is `0`, and
with `fft0[...,0] = 3, fft0[...,1] = 1`: I is 4, Q is 2, XX is 6, YY is 2. -/
theorem stokes_reconstruction_formulas (d : LaneRawData) (t0 c0 t c s f : ℕ) :
    (Stokes_I d t0 c0 t c s f
      = d.fft0 (t0 + t) (c0 + c) s f 0 + d.fft0 (t0 + t) (c0 + c) s f 1) ∧
    (Stokes_Q d t0 c0 t c s f
      = d.fft0 (t0 + t) (c0 + c) s f 0 - d.fft0 (t0 + t) (c0 + c) s f 1) ∧
    (Stokes_U d t0 c0 t c s f = 2 * d.fft1 (t0 + t) (c0 + c) s f 0) ∧
    (Stokes_V d t0 c0 t c s f = -2 * d.fft1 (t0 + t) (c0 + c) s f 1) ∧
    (nenuStokesRaw d "i" t0 c0 = some (Stokes_I d t0 c0)) ∧
    (nenuStokesRaw d "q" t0 c0 = some (Stokes_Q d t0 c0)) ∧
    (nenuStokesRaw d "u" t0 c0 = some (Stokes_U d t0 c0)) ∧
    (nenuStokesRaw d "v" t0 c0 = some (Stokes_V d t0 c0)) ∧
    (nenuStokesRaw d "fracv" t0 c0
      = some (fun t c s f => Stokes_V d t0 c0 t c s f / Stokes_I d t0 c0 t c s f)) ∧
    (nenuStokesRaw d "xx" t0 c0 = some (CrossXX d t0 c0)) ∧
    (nenuStokesRaw d "yy" t0 c0 = some (CrossYY d t0 c0)) ∧
    (CrossXX d t0 c0 t c s f = 2 * d.fft0 (t0 + t) (c0 + c) s f 0) ∧
    (CrossYY d t0 c0 t c s f = 2 * d.fft0 (t0 + t) (c0 + c) s f 1) ∧
    ((crossXYoperand d t0 c0 t c s f).1 = 2 * d.fft1 (t0 + t) (c0 + c) s f 0) ∧
    ((crossXYoperand d t0 c0 t c s f).2 = -2 * d.fft1 (t0 + t) (c0 + c) s f 1) ∧
    (Stokes_I (rawConstTest 1 1) t0 c0 t c s f = 2) ∧
    (Stokes_Q (rawConstTest 1 1) t0 c0 t c s f = 0) ∧
    (Stokes_I (rawConstTest 3 1) t0 c0 t c s f = 4) ∧
    (Stokes_Q (rawConstTest 3 1) t0 c0 t c s f = 2) ∧
    (CrossXX (rawConstTest 3 1) t0 c0 t c s f = 6) ∧
    (CrossYY (rawConstTest 3 1) t0 c0 t c s f = 2) := by
  refine ⟨?_, ?_, ?_, ?_, rfl, rfl, rfl, rfl, rfl, rfl, rfl, ?_, ?_, ?_, ?_,
    ?_, ?_, ?_, ?_, ?_, ?_⟩ <;>
    simp [Stokes_I, Stokes_Q, Stokes_U, Stokes_V, CrossXX, CrossYY,
      crossXYoperand, arraySlice, rawConstTest, Fin.sum_univ_two] <;>
    try ring



/-- One application of the beamlet half-swap index map sends the entry at
channel `c`, half `h`, in-half position `p` to channel `c`, half `1 - h`,
position `p`. -/
theorem swap_core (half c h p : ℕ) (hp : 0 < half) (hh : h ≤ 1) (hplt : p < half) :
    (fun x => x / (2 * half) * (2 * half) + (1 - x % (2 * half) / half) * half
      + x % (2 * half) % half) ((2 * half) * c + (half * h + p))
    = (2 * half) * c + (half * (1 - h) + p) := by
  simp only
  have hn : 0 < 2 * half := by omega
  have hs : half * h + p < 2 * half := by
    calc half * h + p < half * h + half := Nat.add_lt_add_left hplt _
      _ ≤ half * 1 + half := Nat.add_le_add_right (Nat.mul_le_mul_left _ hh) _
      _ = 2 * half := by ring
  have hdiv : ((2 * half) * c + (half * h + p)) / (2 * half) = c := by
    rw [Nat.mul_add_div hn, Nat.div_eq_of_lt hs, Nat.add_zero]
  have hmod : ((2 * half) * c + (half * h + p)) % (2 * half) = half * h + p := by
    rw [Nat.mul_add_mod, Nat.mod_eq_of_lt hs]
  rw [hdiv, hmod]
  have hdiv2 : (half * h + p) / half = h := by
    rw [Nat.mul_add_div hp, Nat.div_eq_of_lt hplt, Nat.add_zero]
  have hmod2 : (half * h + p) % half = p := by
    rw [Nat.mul_add_mod, Nat.mod_eq_of_lt hplt]
  rw [hdiv2, hmod2]
  ring

/-- The frequency-index permutation performed by the beamlet half-swap is an
involution: arithmetic core, with `fftlen = 2 * half`. -/
theorem swap_index_involutive (half f : ℕ) (hp : 0 < half) :
    (fun x => x / (2 * half) * (2 * half) + (1 - x % (2 * half) / half) * half
      + x % (2 * half) % half)
    ((fun x => x / (2 * half) * (2 * half) + (1 - x % (2 * half) / half) * half
      + x % (2 * half) % half) f) = f := by
  have hn : 0 < 2 * half := by omega
  have hh : f % (2 * half) / half ≤ 1 := by
    have := (Nat.div_lt_iff_lt_mul hp).2
      ((Nat.mod_lt f hn).trans_le (by omega : 2 * half ≤ 2 * half))
    omega
  have hplt : f % (2 * half) % half < half := Nat.mod_lt _ hp
  obtain ⟨c0, hc0⟩ : ∃ c0, f / (2 * half) = c0 := ⟨_, rfl⟩
  obtain ⟨h0, hh0⟩ : ∃ h0, f % (2 * half) / half = h0 := ⟨_, rfl⟩
  obtain ⟨p0, hp0⟩ : ∃ p0, f % (2 * half) % half = p0 := ⟨_, rfl⟩
  have hf : f = (2 * half) * c0 + (half * h0 + p0) := by
    rw [← hc0, ← hh0, ← hp0, Nat.div_add_mod, Nat.div_add_mod]
  rw [hh0] at hh
  rw [hp0] at hplt
  conv_lhs => rw [hf]
  rw [swap_core half c0 h0 p0 hp hh hplt]
  rw [swap_core half c0 (1 - h0) p0 hp (Nat.sub_le 1 h0) hplt]
  have h1 : 1 - (1 - h0) = h0 := by omega
  rw [h1, ← hf]

/-- Claim C3: for every even positive `fft_length`, applying the beamlet
half-swap of `NenuStokes.correct` twice is the identity on every entry of the
2-D time-frequency array; for odd `fft_length` the operation fails with the
`ValueError` that the spec calls `ConfigurationError`. -/
theorem beamletSwap_involutive (fftlen : ℕ) (d : ℕ → ℕ → ℚ) (t f : ℕ) :
    (fftlen % 2 = 0 → 0 < fftlen →
      beamletSwap fftlen (beamletSwap fftlen d) t f = d t f) ∧
    (fftlen % 2 ≠ 0 →
      nenuCorrectSwap fftlen d = .error "Problem with fftlen value") := by
  constructor
  · intro hev hpos
    obtain ⟨half, rfl⟩ : ∃ half, fftlen = 2 * half := ⟨fftlen / 2, by omega⟩
    have hp : 0 < half := by omega
    have h2 : 2 * half / 2 = half := by omega
    show d t _ = d t f
    simp only [beamletSwap, h2]
    exact congrArg (d t) (swap_index_involutive half f hp)
  · intro hodd
    simp [nenuCorrectSwap, hodd]

/-- Witness for claim C3 at `fft_length = 4` (even) and `3` (odd), on a
concrete array. -/
theorem beamletSwap_involutive_witness :
    beamletSwap 4 (beamletSwap 4 (fun t f => (t + 2 * f : ℚ))) 1 5
        = (fun t f => (t + 2 * f : ℚ)) 1 5 ∧
      nenuCorrectSwap 3 (fun t f => (t + 2 * f : ℚ))
        = .error "Problem with fftlen value" :=
  ⟨(beamletSwap_involutive 4 (fun t f => (t + 2 * f : ℚ)) 1 5).1 (by decide)
      (by decide),
    (beamletSwap_involutive 3 (fun t f => (t + 2 * f : ℚ)) 1 5).2 (by decide)⟩

/- ===================== idx_of (other/tools.py) ============================= -/

/-- `idx_of` from `other/tools.py`: find the index of `value` in `array`.
With `diff = array - value`: for order low, if no element is `≤ value`,
return `0`, otherwise the first index at which `diff` equals the maximum of
its non-positive entries (`np.argwhere(diff == diff[diff <= 0.].max())[0, 0]`);
for order high, if no element is `≥ value`, return the last index, otherwise
the first index at which `diff` equals the minimum of its non-negative
entries.  Any other `order` raises `ValueError`.  The `none` branches of the
two `match`es are unreachable: they are guarded by the preceding `np.any`
tests. -/
def idx_of (array : List ℚ) (value : ℚ) (order : String) : Except String ℕ :=
  if order ≠ "low" ∧ order ≠ "high" then
    .error "order should only be low or high"
  else if order = "low" then
    if array.any (fun x => decide (x ≤ value)) = false then .ok 0
    else
      match ((array.map (fun x => x - value)).filter
          (fun x => decide (x ≤ 0))).maximum with
      | none => .ok 0
      | some m => .ok ((array.map (fun x => x - value)).findIdx
          (fun x => decide (x = m)))
  else
    if array.any (fun x => decide (value ≤ x)) = false then
      .ok (array.length - 1)
    else
      match ((array.map (fun x => x - value)).filter
          (fun x => decide (0 ≤ x))).minimum with
      | none => .ok (array.length - 1)
      | some m => .ok ((array.map (fun x => x - value)).findIdx
          (fun x => decide (x = m)))

/-- Low branch of `idx_of` when some element is `≤ value`: the returned index
is in range, its element is the largest element `≤ value`, and it is the
first index carrying that element value. -/
theorem idx_of_low_found (array : List ℚ) (value : ℚ)
    (h : ∃ x ∈ array, x ≤ value) :
    ∃ i, idx_of array value "low" = .ok i ∧ i < array.length ∧
      array.getD i 0 ≤ value ∧
      (∀ j, j < array.length → array.getD j 0 ≤ value →
        array.getD j 0 ≤ array.getD i 0) ∧
      (∀ j, j < i → array.getD j 0 ≠ array.getD i 0) := by
  obtain ⟨x, hx, hxv⟩ := h
  have hany : array.any (fun x => decide (x ≤ value)) = true :=
    List.any_eq_true.2 ⟨x, hx, by simpa using hxv⟩
  have hxdiff : x - value ∈ (array.map (fun x => x - value)).filter
      (fun x => decide (x ≤ 0)) :=
    List.mem_filter.2 ⟨List.mem_map_of_mem _ hx,
      by simp only [decide_eq_true_eq, sub_nonpos]; exact hxv⟩
  cases hmax : ((array.map (fun x => x - value)).filter
      (fun x => decide (x ≤ 0))).maximum with
  | bot => exact absurd (List.maximum_eq_bot.1 hmax) (List.ne_nil_of_mem hxdiff)
  | coe m =>
    obtain ⟨hm_mem, hm_ub⟩ := List.maximum_eq_coe_iff.1 hmax
    have hm_diff : m ∈ array.map (fun x => x - value) :=
      List.mem_of_mem_filter hm_mem
    have hm0 : m ≤ 0 := by
      have := (List.mem_filter.1 hm_mem).2
      simpa using this
    have hex : ∃ y ∈ array.map (fun x => x - value),
        (fun x => decide (x = m)) y = true := ⟨m, hm_diff, by simp⟩
    have hilt : (array.map (fun x => x - value)).findIdx (fun x => decide (x = m))
        < (array.map (fun x => x - value)).length :=
      List.findIdx_lt_length_of_exists hex
    have hlen : (array.map (fun x => x - value)).length = array.length :=
      List.length_map _ _
    have hia : (array.map (fun x => x - value)).findIdx (fun x => decide (x = m))
        < array.length := hlen ▸ hilt
    have hdi : (array.map (fun x => x - value)).getD
        ((array.map (fun x => x - value)).findIdx (fun x => decide (x = m))) 0
        = m := by
      rw [List.getD_eq_getElem _ _ hilt]
      have := List.findIdx_getElem (w := hilt)
      simpa using this
    have hai : array.getD
        ((array.map (fun x => x - value)).findIdx (fun x => decide (x = m))) 0
        - value = m := by
      rw [List.getD_eq_getElem _ _ hia]
      rw [List.getD_eq_getElem _ _ hilt, List.getElem_map] at hdi
      exact hdi
    refine ⟨(array.map (fun x => x - value)).findIdx (fun x => decide (x = m)),
      ?_, hia, ?_, ?_, ?_⟩
    · simp [idx_of, hany, hmax]
    · linarith
    · intro j hj hjv
      have hjd : array.getD j 0 - value ∈ (array.map (fun x => x - value)).filter
          (fun x => decide (x ≤ 0)) := by
        refine List.mem_filter.2 ⟨?_, ?_⟩
        · rw [List.getD_eq_getElem _ _ hj]
          exact List.mem_map_of_mem _ (array.getElem_mem hj)
        · simp only [decide_eq_true_eq, sub_nonpos]; exact hjv
      have := hm_ub _ hjd
      linarith
    · intro j hji
      have hjlt : j < array.length := hji.trans hia
      have hjm := List.not_of_lt_findIdx hji
      simp only [decide_eq_false_iff_not] at hjm
      rw [List.getElem_map] at hjm
      intro hcon
      apply hjm
      rw [← List.getD_eq_getElem array 0 hjlt]
      rw [hcon, hai]

/-- High branch of `idx_of` when some element is `≥ value`: the returned
index is in range, its element is the smallest element `≥ value`, and it is
the first index carrying that element value. -/
theorem idx_of_high_found (array : List ℚ) (value : ℚ)
    (h : ∃ x ∈ array, value ≤ x) :
    ∃ i, idx_of array value "high" = .ok i ∧ i < array.length ∧
      value ≤ array.getD i 0 ∧
      (∀ j, j < array.length → value ≤ array.getD j 0 →
        array.getD i 0 ≤ array.getD j 0) ∧
      (∀ j, j < i → array.getD j 0 ≠ array.getD i 0) := by
  obtain ⟨x, hx, hxv⟩ := h
  have hany : array.any (fun x => decide (value ≤ x)) = true :=
    List.any_eq_true.2 ⟨x, hx, by simpa using hxv⟩
  have hxdiff : x - value ∈ (array.map (fun x => x - value)).filter
      (fun x => decide (0 ≤ x)) :=
    List.mem_filter.2 ⟨List.mem_map_of_mem _ hx,
      by simp only [decide_eq_true_eq, sub_nonneg]; exact hxv⟩
  cases hmin : ((array.map (fun x => x - value)).filter
      (fun x => decide (0 ≤ x))).minimum with
  | top => exact absurd (List.minimum_eq_top.1 hmin) (List.ne_nil_of_mem hxdiff)
  | coe m =>
    obtain ⟨hm_mem, hm_lb⟩ := List.minimum_eq_coe_iff.1 hmin
    have hm_diff : m ∈ array.map (fun x => x - value) :=
      List.mem_of_mem_filter hm_mem
    have hm0 : 0 ≤ m := by
      have := (List.mem_filter.1 hm_mem).2
      simpa using this
    have hex : ∃ y ∈ array.map (fun x => x - value),
        (fun x => decide (x = m)) y = true := ⟨m, hm_diff, by simp⟩
    have hilt : (array.map (fun x => x - value)).findIdx (fun x => decide (x = m))
        < (array.map (fun x => x - value)).length :=
      List.findIdx_lt_length_of_exists hex
    have hlen : (array.map (fun x => x - value)).length = array.length :=
      List.length_map _ _
    have hia : (array.map (fun x => x - value)).findIdx (fun x => decide (x = m))
        < array.length := hlen ▸ hilt
    have hai : array.getD
        ((array.map (fun x => x - value)).findIdx (fun x => decide (x = m))) 0
        - value = m := by
      rw [List.getD_eq_getElem _ _ hia]
      have := List.findIdx_getElem (w := hilt)
      simp only [decide_eq_true_eq] at this
      rw [List.getElem_map] at this
      exact this
    refine ⟨(array.map (fun x => x - value)).findIdx (fun x => decide (x = m)),
      ?_, hia, ?_, ?_, ?_⟩
    · simp [idx_of, hany, hmin]
    · linarith
    · intro j hj hjv
      have hjd : array.getD j 0 - value ∈ (array.map (fun x => x - value)).filter
          (fun x => decide (0 ≤ x)) := by
        refine List.mem_filter.2 ⟨?_, ?_⟩
        · rw [List.getD_eq_getElem _ _ hj]
          exact List.mem_map_of_mem _ (array.getElem_mem hj)
        · simp only [decide_eq_true_eq, sub_nonneg]; exact hjv
      have := hm_lb _ hjd
      linarith
    · intro j hji
      have hjlt : j < array.length := hji.trans hia
      have hjm := List.not_of_lt_findIdx hji
      simp only [decide_eq_false_iff_not] at hjm
      rw [List.getElem_map] at hjm
      intro hcon
      apply hjm
      rw [← List.getD_eq_getElem array 0 hjlt]
      rw [hcon, hai]

/-- Claim C2 (amended): over a monotonically non-decreasing array, `idx_of`
with order low returns the first (least) index attaining the largest element
`≤ value` — the greatest such index only when that element value is not
repeated — or `0` if no element is `≤ value`; with order high it returns the
least index whose element is `≥ value`, or the last index if none; whenever
`array[0] ≤ value ≤ array[last]` the two returned indices bracket the value
and satisfy `low ≤ high`. -/
theorem idx_of_spec (array : List ℚ) (value : ℚ)
    (hsort : array.Sorted (· ≤ ·)) (hne : array ≠ []) :
    ((¬ ∃ x ∈ array, x ≤ value) → idx_of array value "low" = .ok 0) ∧
    ((∃ x ∈ array, x ≤ value) → ∃ i, idx_of array value "low" = .ok i ∧
      i < array.length ∧ array.getD i 0 ≤ value ∧
      (∀ j, j < array.length → array.getD j 0 ≤ value →
        array.getD j 0 ≤ array.getD i 0) ∧
      (∀ j, j < i → array.getD j 0 < array.getD i 0)) ∧
    ((¬ ∃ x ∈ array, value ≤ x) →
      idx_of array value "high" = .ok (array.length - 1)) ∧
    ((∃ x ∈ array, value ≤ x) → ∃ i, idx_of array value "high" = .ok i ∧
      i < array.length ∧ value ≤ array.getD i 0 ∧
      (∀ j, j < i → array.getD j 0 < value)) ∧
    (array.getD 0 0 ≤ value → value ≤ array.getD (array.length - 1) 0 →
      ∃ lo hi, idx_of array value "low" = .ok lo ∧
        idx_of array value "high" = .ok hi ∧ lo ≤ hi ∧
        array.getD lo 0 ≤ value ∧ value ≤ array.getD hi 0) := by
  have hmono : ∀ j i, j < i → i < array.length →
      array.getD j 0 ≤ array.getD i 0 := by
    intro j i hji hi
    have hj : j < array.length := hji.trans hi
    rw [List.getD_eq_getElem _ _ hj, List.getD_eq_getElem _ _ hi]
    have := hsort.rel_get_of_lt (a := ⟨j, hj⟩) (b := ⟨i, hi⟩)
      (Fin.mk_lt_mk.2 hji)
    simpa using this
  have hpos : 0 < array.length := List.length_pos.2 hne
  refine ⟨?_, ?_, ?_, ?_, ?_⟩
  · intro hno
    have hany : array.any (fun x => decide (x ≤ value)) = false := by
      rw [List.any_eq_false]
      intro x hx
      simp only [decide_eq_true_eq]
      exact fun hxv => hno ⟨x, hx, hxv⟩
    simp [idx_of, hany]
  · intro hex
    obtain ⟨i, h1, h2, h3, h4, h5⟩ := idx_of_low_found array value hex
    exact ⟨i, h1, h2, h3, h4, fun j hji =>
      lt_of_le_of_ne (hmono j i hji h2) (h5 j hji)⟩
  · intro hno
    have hany : array.any (fun x => decide (value ≤ x)) = false := by
      rw [List.any_eq_false]
      intro x hx
      simp only [decide_eq_true_eq]
      exact fun hxv => hno ⟨x, hx, hxv⟩
    simp [idx_of, hany]
  · intro hex
    obtain ⟨i, h1, h2, h3, h4, h5⟩ := idx_of_high_found array value hex
    refine ⟨i, h1, h2, h3, fun j hji => ?_⟩
    by_contra hge
    push_neg at hge
    have hji2 : j < array.length := hji.trans h2
    exact h5 j hji (le_antisymm (hmono j i hji h2) (h4 j hji2 hge))
  · intro h0 hN
    have hex_low : ∃ x ∈ array, x ≤ value := by
      refine ⟨array.getD 0 0, ?_, h0⟩
      rw [List.getD_eq_getElem _ _ hpos]
      exact array.getElem_mem hpos
    have hlast : array.length - 1 < array.length := by omega
    have hex_high : ∃ x ∈ array, value ≤ x := by
      refine ⟨array.getD (array.length - 1) 0, ?_, hN⟩
      rw [List.getD_eq_getElem _ _ hlast]
      exact array.getElem_mem hlast
    obtain ⟨lo, hl1, hl2, hl3, hl4, hl5⟩ := idx_of_low_found array value hex_low
    obtain ⟨hi, hh1, hh2, hh3, hh4, hh5⟩ := idx_of_high_found array value hex_high
    refine ⟨lo, hi, hl1, hh1, ?_, hl3, hh3⟩
    by_contra hlt
    push_neg at hlt
    have heq : array.getD hi 0 = array.getD lo 0 :=
      le_antisymm (hmono hi lo hlt hl2) (le_trans hl3 hh3)
    exact hl5 hi hlt heq

/-- Claim C2 counterexample: on the monotonically non-decreasing array
`[1, 1]` with `value = 1` and order low, `idx_of` returns index `0`, although
the greatest index whose element is `≤ value` is `1`: the claim's description
of the low order fails on arrays with repeated elements. -/
theorem idx_of_low_counterexample :
    idx_of [(1 : ℚ), 1] 1 "low" = .ok 0 ∧
      ¬ (∀ j < [(1 : ℚ), 1].length, [(1 : ℚ), 1].getD j 0 ≤ 1 → j ≤ 0) := by
  constructor
  · have hmap : [(1 : ℚ), 1].map (fun x => x - 1) = [0, 0] := by norm_num
    have hany : [(1 : ℚ), 1].any (fun x => decide (x ≤ 1)) = true := by decide
    have hmax0 : ([(0 : ℚ), 0]).maximum = some 0 := by decide
    simp [idx_of, hany, hmap, hmax0]
    decide
  · intro hall
    have := hall 1 (by norm_num) (by norm_num)
    omega

/-- Witness for claim C2 on the sorted array `[1, 2, 3]` with `value = 2`. -/
theorem idx_of_spec_witness :
    ∃ lo hi, idx_of [(1 : ℚ), 2, 3] 2 "low" = .ok lo ∧
      idx_of [(1 : ℚ), 2, 3] 2 "high" = .ok hi ∧ lo ≤ hi ∧
      [(1 : ℚ), 2, 3].getD lo 0 ≤ 2 ∧ 2 ≤ [(1 : ℚ), 2, 3].getD hi 0 :=
  (idx_of_spec [(1 : ℚ), 2, 3] 2 (by decide) (by decide)).2.2.2.2
    (by norm_num) (by norm_num)

/- ===================== Time axis (read/lane.py) ============================ -/

/-- The geometry fields of the lane file header that the time axis depends
on (`Lane._load` copies them from the file header). -/
structure TFHeader where
  fftlen : ℕ
  nfft2int : ℕ
  nffte : ℕ

/-- `self.dt = 5.12e-6 * self.fftlen * self.nfft2int` (`Lane._load`). -/
def lane_dt (h : TFHeader) : ℚ := (512 / 100000000) * h.fftlen * h.nfft2int

/-- `self.block_dt = self.dt * self.nffte` (`Lane._load`). -/
def lane_block_dt (h : TFHeader) : ℚ := lane_dt h * h.nffte

/-- `Lane._parse_tf`:
`self._timestamps = arange(ntb) * block_dt + memdata[TIMESTAMP][0]` — the
time axis is a fixed stride from the timestamp field of block 0.
`blockTimestamps` lists the per-block `TIMESTAMP` header fields; only entry 0
is read. -/
def parse_tf_timestamps (h : TFHeader) (blockTimestamps : List ℚ) : ℕ → ℚ :=
  fun i => blockTimestamps.headI + i * lane_block_dt h

/-- The block-duration formula as the claim words it:
`5.12e-6 s * samples_per_block * fft_integration_count`, with no
`fft_length` factor — for comparison with `lane_block_dt`. -/
def claim_block_duration (h : TFHeader) : ℚ :=
  (512 / 100000000) * h.nffte * h.nfft2int

/-- Claim C4 counterexample: with `fftlen = 4, nfft2int = 1, nffte = 1` and
per-block timestamp fields `[0, 999]`, the code assigns block 1 the time
`0 + 5.12e-6 * 4 * 1 * 1`, which differs both from the claim's
`fftlen`-free block-duration formula and from block 1's own header
timestamp `999` (the code never reads it). -/
theorem parse_tf_counterexample :
    parse_tf_timestamps ⟨4, 1, 1⟩ [0, 999] 1 = 512 / 100000000 * 4 ∧
      parse_tf_timestamps ⟨4, 1, 1⟩ [0, 999] 1
        ≠ 0 + 1 * claim_block_duration ⟨4, 1, 1⟩ ∧
      parse_tf_timestamps ⟨4, 1, 1⟩ [0, 999] 1 ≠ 999 := by
  refine ⟨?_, ?_, ?_⟩ <;>
    norm_num [parse_tf_timestamps, lane_block_dt, lane_dt, claim_block_duration]

/-- Claim C4 (amended): the derived time axis assigns block `i` the start
time `block0.timestamp + i * block_duration` with `block_duration =
5.12e-6 s * fft_length * fft_integration_count * samples_per_block`, as a
fixed stride computed from the timestamp of block 0 alone: the timestamp
fields of all later blocks are ignored. -/
theorem parse_tf_spec (h : TFHeader) (ts ts2 : List ℚ) (i : ℕ) :
    parse_tf_timestamps h ts i
      = ts.headI + i * ((512 / 100000000) * h.fftlen * h.nfft2int * h.nffte) ∧
    (ts.headI = ts2.headI →
      parse_tf_timestamps h ts i = parse_tf_timestamps h ts2 i) := by
  constructor
  · simp only [parse_tf_timestamps, lane_block_dt, lane_dt]
  · intro hh
    simp [parse_tf_timestamps, hh]

/-- Witness for claim C4 on a concrete header and timestamp table. -/
theorem parse_tf_spec_witness :
    parse_tf_timestamps ⟨2, 3, 4⟩ [5, 7] 1
        = 5 + 1 * ((512 / 100000000) * 2 * 3 * 4) ∧
      parse_tf_timestamps ⟨2, 3, 4⟩ [5, 7] 1
        = parse_tf_timestamps ⟨2, 3, 4⟩ [5, 8] 1 :=
  ⟨by
    have := (parse_tf_spec ⟨2, 3, 4⟩ [5, 7] [5, 8] 1).1
    simpa using this,
    (parse_tf_spec ⟨2, 3, 4⟩ [5, 7] [5, 8] 1).2 (by norm_num)⟩

/- ===================== Range setters (read/lane.py) ======================== -/

/-- Result of one of the `Lane` range setters: `caller` is the
caller-supplied Python list object as it stands after the call (in-place
mutations included), `stored` is the accepted selection or the raised
exception, and `warnings` counts the out-of-range warnings emitted. -/
structure SetterOutcome where
  caller : List ℚ
  stored : Except String (List ℚ)
  warnings : ℕ

/-- The `Lane.time` setter on a caller-supplied length-2 list of unix
floats: clamp `t0` up to `time_min` and `t1` down to `time_max`, each with a
warning; raise `ValueError` (the spec's `RangeError`) if the clamped stop is
before the clamped start; otherwise store a fresh list `[t0_unix, t1_unix]`.
The caller's list is never written. -/
def lane_time_setter (tmin tmax : ℚ) (t : List ℚ) : SetterOutcome :=
  match t with
  | [t0, t1] =>
    let t0c := if t0 < tmin then tmin else t0
    let w0 : ℕ := if t0 < tmin then 1 else 0
    let t1c := if tmax < t1 then tmax else t1
    let w1 : ℕ := if tmax < t1 then 1 else 0
    if t1c < t0c then ⟨t, .error "Stop time < Start time", w0 + w1⟩
    else ⟨t, .ok [t0c, t1c], w0 + w1⟩
  | _ => ⟨t, .error "time should be a length 2 array", 0⟩

/-- The `Lane.freq` setter on a caller-supplied length-2 list of MHz floats:
clamps like the time setter, but writes the clamped bounds into the caller's
list (`f[0] = self.freq_min`, `f[1] = self.freq_max`) and stores that same
object. -/
def lane_freq_setter (fmin fmax : ℚ) (f : List ℚ) : SetterOutcome :=
  match f with
  | [f0, f1] =>
    let f0c := if f0 < fmin then fmin else f0
    let w0 : ℕ := if f0 < fmin then 1 else 0
    let f1c := if fmax < f1 then fmax else f1
    let w1 : ℕ := if fmax < f1 then 1 else 0
    if f1c < f0c then ⟨[f0c, f1c], .error "Max freq < Min freq", w0 + w1⟩
    else ⟨[f0c, f1c], .ok [f0c, f1c], w0 + w1⟩
  | _ => ⟨f, .error "freq should be a length 2 array", 0⟩

/-- Claim C5 counterexample: on a file with time bounds `[0, 10]`, the
non-inverted out-of-range selection `[11, 12]` is not clamped-and-accepted:
clamping turns it into the inverted range `[11, 10]` and the setter raises
the `RangeError`. -/
theorem range_setter_counterexample :
    (lane_time_setter 0 10 [11, 12]).stored = .error "Stop time < Start time" ∧
      (0 : ℚ) ≤ 10 ∧ (11 : ℚ) ≤ 12 ∧ ¬ ((11 : ℚ) ≤ 10) := by
  refine ⟨?_, by norm_num, by norm_num, by norm_num⟩
  norm_num [lane_time_setter]

/-- Claim C5 (amended): for bounds `tmin ≤ tmax`, a length-2 selection
`[a, b]` is clamped to `[max a tmin, min b tmax]` with one non-fatal warning
per out-of-range bound, and proceeds exactly when the non-inverted range
intersects the file's bounds (`a ≤ b`, `a ≤ tmax`, `tmin ≤ b`); an inverted
range, and likewise a non-inverted range lying entirely outside the bounds
(which clamping turns into an inverted one), fails with the `ValueError`
that the spec calls `RangeError`.  The same holds for the frequency
setter. -/
theorem range_setter_spec (tmin tmax a b : ℚ) (hb : tmin ≤ tmax) :
    ((a ≤ b ∧ a ≤ tmax ∧ tmin ≤ b) →
      (lane_time_setter tmin tmax [a, b]).stored
          = .ok [max a tmin, min b tmax] ∧
        (lane_freq_setter tmin tmax [a, b]).stored
          = .ok [max a tmin, min b tmax] ∧
        (lane_time_setter tmin tmax [a, b]).warnings
          = (if a < tmin then 1 else 0) + (if tmax < b then 1 else 0)) ∧
    ((b < a ∨ b < tmin ∨ tmax < a) →
      (lane_time_setter tmin tmax [a, b]).stored
          = .error "Stop time < Start time" ∧
        (lane_freq_setter tmin tmax [a, b]).stored
          = .error "Max freq < Min freq") := by
  have hmax : (if a < tmin then tmin else a) = max a tmin := by
    rcases lt_or_le a tmin with h | h
    · rw [if_pos h, max_eq_right h.le]
    · rw [if_neg (not_lt.2 h), max_eq_left h]
  have hmin : (if tmax < b then tmax else b) = min b tmax := by
    rcases lt_or_le tmax b with h | h
    · rw [if_pos h, min_eq_right h.le]
    · rw [if_neg (not_lt.2 h), min_eq_left h]
  constructor
  · rintro ⟨hab, hat, htb⟩
    have hok : max a tmin ≤ min b tmax := le_min (max_le hab htb) (max_le hat hb)
    simp only [lane_time_setter, lane_freq_setter, hmax, hmin,
      if_neg (not_lt.2 hok)]
    exact ⟨trivial, trivial, trivial⟩
  · intro hfail
    have hbad : min b tmax < max a tmin := by
      rcases hfail with h | h | h
      · exact lt_of_le_of_lt (min_le_left _ _) (lt_of_lt_of_le h (le_max_left _ _))
      · exact lt_of_le_of_lt (min_le_left _ _) (lt_of_lt_of_le h (le_max_right _ _))
      · exact lt_of_le_of_lt (min_le_right _ _) (lt_of_lt_of_le h (le_max_left _ _))
    simp only [lane_time_setter, lane_freq_setter, hmax, hmin, if_pos hbad]
    exact ⟨trivial, trivial⟩

/-- Witness for claim C5: bounds `[0, 10]`, accepted selection `[-5, 20]`
(clamped on both sides) and rejected selection `[11, 12]`. -/
theorem range_setter_spec_witness :
    (lane_time_setter 0 10 [-5, 20]).stored = .ok [max (-5) 0, min 20 10] ∧
      (lane_time_setter 0 10 [11, 12]).stored
        = .error "Stop time < Start time" :=
  ⟨((range_setter_spec 0 10 (-5) 20 (by norm_num)).1 (by norm_num)).1,
    ((range_setter_spec 0 10 11 12 (by norm_num)).2
      (by right; right; norm_num)).1⟩

/-- Claim C9: when a clamp fires, the frequency setter writes the clamped
bound back into the caller-supplied list object, so after the call the list
the caller passed in has been mutated in place; the time setter always
leaves the caller's list unchanged (it stores a fresh list). -/
theorem freq_setter_mutates_caller (fmin fmax f0 f1 : ℚ) :
    (f0 < fmin →
      (lane_freq_setter fmin fmax [f0, f1]).caller
          = [fmin, if fmax < f1 then fmax else f1] ∧
        (lane_freq_setter fmin fmax [f0, f1]).caller ≠ [f0, f1]) ∧
    (fmax < f1 →
      (lane_freq_setter fmin fmax [f0, f1]).caller
          = [if f0 < fmin then fmin else f0, fmax] ∧
        (lane_freq_setter fmin fmax [f0, f1]).caller ≠ [f0, f1]) ∧
    (∀ t : List ℚ, (lane_time_setter fmin fmax t).caller = t) := by
  have hcaller : (lane_freq_setter fmin fmax [f0, f1]).caller
      = [if f0 < fmin then fmin else f0, if fmax < f1 then fmax else f1] := by
    simp only [lane_freq_setter]
    rcases lt_or_le (if fmax < f1 then fmax else f1) (if f0 < fmin then fmin else f0)
      with h | h
    · rw [if_pos h]
    · rw [if_neg (not_lt.2 h)]
  refine ⟨?_, ?_, ?_⟩
  · intro h
    rw [hcaller, if_pos h]
    refine ⟨rfl, ?_⟩
    intro hcon
    have := List.head_eq_of_cons_eq hcon
    linarith
  · intro h
    rw [hcaller, if_pos h]
    refine ⟨rfl, ?_⟩
    intro hcon
    have htail := List.tail_eq_of_cons_eq hcon
    have := List.head_eq_of_cons_eq htail
    linarith
  · intro t
    match t with
    | [] => rfl
    | [x] => rfl
    | [x, y] =>
      simp only [lane_time_setter]
      rcases lt_or_le (if fmax < y then fmax else y) (if x < fmin then fmin else x)
        with h | h
      · rw [if_pos h]
      · rw [if_neg (not_lt.2 h)]
    | x :: y :: z :: r => rfl

/-- Witness for claim C9: bounds `[0, 10]`, caller list `[-3, 5]`: the
frequency setter rewrites the caller's list to `[0, 5]`, the time setter
leaves it untouched. -/
theorem freq_setter_mutates_caller_witness :
    (lane_freq_setter 0 10 [-3, 5]).caller = [0, 5] ∧
      (lane_freq_setter 0 10 [-3, 5]).caller ≠ [-3, 5] ∧
      (lane_time_setter 0 10 [-3, 5]).caller = [-3, 5] := by
  obtain ⟨h1, _, h3⟩ := freq_setter_mutates_caller 0 10 (-3) 5
  obtain ⟨ha, hb⟩ := h1 (by norm_num)
  refine ⟨?_, hb, h3 [-3, 5]⟩
  rw [ha]
  norm_num

/- ===================== SpecData (stokes/specdata.py) ======================= -/

/-- `SpecData`: a 2-D `[time][frequency]` array plus its axes and the Stokes
kind tag (the source keeps the tag in `meta['stokes']`; every `SpecData` the
package builds carries one). -/
structure SpecData where
  data : List (List ℚ)
  time : List ℚ
  freq : List ℚ
  stokes : String

/-- `np.hstack` on two 2-D arrays: row-wise concatenation. -/
def hstack (a b : List (List ℚ)) : List (List ℚ) :=
  List.zipWith (fun r s => r ++ s) a b

/-- `SpecData.__and__`: concatenate two `SpecData` along frequency.  Raises
`ValueError` (the spec's `InconsistentSelection`) on mismatched Stokes
kinds; places `self` first iff `self.freq.max() < other.freq.min()`,
otherwise places `other` first; `np.max`/`np.min` raise on an empty axis. -/
def specAnd (a b : SpecData) : Except String SpecData :=
  if a.stokes ≠ b.stokes then .error "Inconsistent Stokes parameters"
  else
    match a.freq.maximum, b.freq.minimum with
    | some am, some bm =>
      if am < bm then
        .ok ⟨hstack a.data b.data, a.time, a.freq ++ b.freq, a.stokes⟩
      else
        .ok ⟨hstack b.data a.data, a.time, b.freq ++ a.freq, a.stokes⟩
    | _, _ => .error "zero-size array reduction"

/-- Claim C7: concatenating two `SpecData` with equal Stokes kind and
disjoint frequency ranges yields a strictly increasing frequency axis of
combined length with no duplicated bins, the operand with the smaller
frequencies first; mismatched Stokes kinds fail with the `ValueError` the
spec calls `InconsistentSelection`. -/
theorem specAnd_spec (a b : SpecData)
    (ha : a.freq ≠ []) (hb : b.freq ≠ [])
    (hsa : a.freq.Sorted (· < ·)) (hsb : b.freq.Sorted (· < ·)) :
    (a.stokes ≠ b.stokes →
      specAnd a b = .error "Inconsistent Stokes parameters") ∧
    (a.stokes = b.stokes → (∀ x ∈ a.freq, ∀ y ∈ b.freq, x < y) →
      specAnd a b
          = .ok ⟨hstack a.data b.data, a.time, a.freq ++ b.freq, a.stokes⟩ ∧
        (a.freq ++ b.freq).Sorted (· < ·) ∧
        (a.freq ++ b.freq).length = a.freq.length + b.freq.length ∧
        (a.freq ++ b.freq).Nodup) ∧
    (a.stokes = b.stokes → (∀ y ∈ b.freq, ∀ x ∈ a.freq, y < x) →
      specAnd a b
          = .ok ⟨hstack b.data a.data, a.time, b.freq ++ a.freq, a.stokes⟩ ∧
        (b.freq ++ a.freq).Sorted (· < ·) ∧
        (b.freq ++ a.freq).length = b.freq.length + a.freq.length ∧
        (b.freq ++ a.freq).Nodup) := by
  obtain ⟨am, ham⟩ : ∃ am, a.freq.maximum = some am := by
    cases hm : a.freq.maximum with
    | bot => exact absurd (List.maximum_eq_bot.1 hm) ha
    | coe am => exact ⟨am, rfl⟩
  obtain ⟨bm, hbm⟩ : ∃ bm, b.freq.minimum = some bm := by
    cases hm : b.freq.minimum with
    | top => exact absurd (List.minimum_eq_top.1 hm) hb
    | coe bm => exact ⟨bm, rfl⟩
  have ham_mem : am ∈ a.freq := List.maximum_mem ham
  have hbm_mem : bm ∈ b.freq := List.minimum_mem hbm
  refine ⟨?_, ?_, ?_⟩
  · intro hne
    simp [specAnd, hne]
  · intro hst hlt
    have hambm : am < bm := hlt am ham_mem bm hbm_mem
    have hsorted : (a.freq ++ b.freq).Sorted (· < ·) :=
      List.pairwise_append.2 ⟨hsa, hsb, hlt⟩
    refine ⟨?_, hsorted, by simp, hsorted.imp (fun h => ne_of_lt h)⟩
    simp [specAnd, hst, ham, hbm, hambm]
  · intro hst hgt
    have hambm : ¬ am < bm := not_lt.2 (hgt bm hbm_mem am ham_mem).le
    have hsorted : (b.freq ++ a.freq).Sorted (· < ·) :=
      List.pairwise_append.2 ⟨hsb, hsa, hgt⟩
    refine ⟨?_, hsorted, by simp, hsorted.imp (fun h => ne_of_lt h)⟩
    simp [specAnd, hst, ham, hbm, hambm]

/-- Witness for claim C7: `[30, 35]` MHz and `[36, 40]` MHz with equal
Stokes kind, and the strictness of the disjointness on `35 < 36`. -/
theorem specAnd_spec_witness :
    specAnd ⟨[[1]], [0], [30, 35], "i"⟩ ⟨[[2]], [0], [36, 40], "i"⟩
        = .ok ⟨hstack [[1]] [[2]], [0], [30, 35] ++ [36, 40], "i"⟩ ∧
      ([(30 : ℚ), 35] ++ [36, 40]).Sorted (· < ·) ∧
      ([(30 : ℚ), 35] ++ [36, 40]).length
        = [(30 : ℚ), 35].length + [(36 : ℚ), 40].length ∧
      ([(30 : ℚ), 35] ++ [36, 40]).Nodup :=
  (specAnd_spec ⟨[[1]], [0], [30, 35], "i"⟩ ⟨[[2]], [0], [36, 40], "i"⟩
    (by decide) (by decide) (by decide) (by decide)).2.1 rfl (by decide)

/-- Claim C10: frequency concatenation performs no disjointness check: for
any two operands with equal Stokes kind and non-empty axes it returns a
result, placing the left operand's columns first exactly when its maximum
frequency is strictly below the right operand's minimum frequency and the
right operand's columns first otherwise; overlapping ranges therefore
produce a non-monotonic frequency axis without any error, as on
`[30, 36]` and `[33, 40]`. -/
theorem specAnd_no_disjointness_check (a b : SpecData)
    (hst : a.stokes = b.stokes) (ha : a.freq ≠ []) (hb : b.freq ≠ []) :
    (∃ am bm, a.freq.maximum = some am ∧ b.freq.minimum = some bm ∧
      specAnd a b = .ok (if am < bm
        then ⟨hstack a.data b.data, a.time, a.freq ++ b.freq, a.stokes⟩
        else ⟨hstack b.data a.data, a.time, b.freq ++ a.freq, a.stokes⟩)) ∧
    (∃ c, specAnd ⟨[[1]], [0], [30, 36], "i"⟩ ⟨[[2]], [0], [33, 40], "i"⟩
        = .ok c ∧ c.freq = [33, 40, 30, 36] ∧ ¬ c.freq.Sorted (· ≤ ·)) := by
  constructor
  · obtain ⟨am, ham⟩ : ∃ am, a.freq.maximum = some am := by
      cases hm : a.freq.maximum with
      | bot => exact absurd (List.maximum_eq_bot.1 hm) ha
      | coe am => exact ⟨am, rfl⟩
    obtain ⟨bm, hbm⟩ : ∃ bm, b.freq.minimum = some bm := by
      cases hm : b.freq.minimum with
      | top => exact absurd (List.minimum_eq_top.1 hm) hb
      | coe bm => exact ⟨bm, rfl⟩
    refine ⟨am, bm, ham, hbm, ?_⟩
    rcases lt_or_le am bm with h | h
    · simp [specAnd, hst, ham, hbm, h]
    · simp [specAnd, hst, ham, hbm, not_lt.2 h, if_neg (not_lt.2 h)]
  · have hmax36 : ([(30 : ℚ), 36]).maximum = some 36 := by decide
    have hmin33 : ([(33 : ℚ), 40]).minimum = some 33 := by decide
    refine ⟨⟨[[2, 1]], [0], [33, 40, 30, 36], "i"⟩, ?_, rfl, by decide⟩
    have hlt : ¬ ((36 : ℚ) < 33) := by norm_num
    simp [specAnd, hstack, hmax36, hmin33, hlt]

/-- Witness for claim C10 on the disjoint pair `[30, 35]` / `[35.5, 40]` and
the overlapping pair built into the theorem. -/
theorem specAnd_no_disjointness_check_witness :
    ∃ am bm, ([(30 : ℚ), 35]).maximum = some am ∧
      ([(35.5 : ℚ), 40]).minimum = some bm ∧
      specAnd ⟨[[1]], [0], [30, 35], "i"⟩ ⟨[[2]], [0], [35.5, 40], "i"⟩
        = .ok (if am < bm
          then ⟨hstack [[1]] [[2]], [0], [30, 35] ++ [35.5, 40], "i"⟩
          else ⟨hstack [[2]] [[1]], [0], [35.5, 40] ++ [30, 35], "i"⟩) :=
  (specAnd_no_disjointness_check ⟨[[1]], [0], [30, 35], "i"⟩
    ⟨[[2]], [0], [35.5, 40], "i"⟩ rfl (by decide) (by decide)).1

/- ===================== Block count (Lane._load) ============================ -/

/-- Byte size of the packed lane-file header (`header_struct` in
`other/const.py`): three `uint64` and six `int32` fields, no padding. -/
def header_itemsize : ℕ := 8 + 8 + 8 + 4 + 4 + 4 + 4 + 4 + 4

/-- Byte size of one beamlet record (`beamlet_struct` in `Lane._load`):
three `int32` plus two `float32` arrays of shape `(nffte, fftlen, 2)`. -/
def beamlet_itemsize (nffte fftlen : ℕ) : ℕ :=
  4 + 4 + 4 + nffte * fftlen * 2 * 4 + nffte * fftlen * 2 * 4

/-- Byte stride of one block (`block_struct` in `Lane._load`): the repeated
header followed by `nbchan` beamlet records. -/
def block_itemsize (nffte fftlen nbchan : ℕ) : ℕ :=
  header_itemsize + nbchan * beamlet_itemsize nffte fftlen

/-- `Lane._load` block count: the whole file is memory-mapped as `int8`
(`tmp.size * tmp.itemsize` bytes, `itemsize = 1`) and
`n_blocks = bytes // block_itemsize`. -/
def lane_n_blocks (fileBytes nffte fftlen nbchan : ℕ) : ℕ :=
  fileBytes / block_itemsize nffte fftlen nbchan

/-- `Lane._load` decoded view: `tmp[: n_blocks * itemsize]` — the byte
length actually handed to `.view(block_struct)`. -/
def lane_view_bytes (fileBytes nffte fftlen nbchan : ℕ) : ℕ :=
  lane_n_blocks fileBytes nffte fftlen nbchan * block_itemsize nffte fftlen nbchan

/-- Claim C8: for every file size — also one that is not a multiple of the
block stride — loading succeeds (`lane_n_blocks`/`lane_view_bytes` are total,
no size check exists) with block count `floor(bytes / stride)`; the decoded
view covers exactly `n_blocks` whole blocks and the trailing
`bytes mod stride < stride` bytes are silently discarded, never an error. -/
theorem lane_load_block_count (fileBytes nffte fftlen nbchan : ℕ) :
    lane_n_blocks fileBytes nffte fftlen nbchan
        = fileBytes / block_itemsize nffte fftlen nbchan ∧
      lane_view_bytes fileBytes nffte fftlen nbchan ≤ fileBytes ∧
      fileBytes - lane_view_bytes fileBytes nffte fftlen nbchan
        = fileBytes % block_itemsize nffte fftlen nbchan ∧
      fileBytes - lane_view_bytes fileBytes nffte fftlen nbchan
        < block_itemsize nffte fftlen nbchan := by
  have hpos : 0 < block_itemsize nffte fftlen nbchan := by
    simp only [block_itemsize, header_itemsize]
    omega
  have key : ∀ n B : ℕ, n - n / B * B = n % B := by
    intro n B
    have h := Nat.div_add_mod n B
    calc n - n / B * B = B * (n / B) + n % B - n / B * B := by rw [h]
      _ = n / B * B + n % B - n / B * B := by rw [Nat.mul_comm]
      _ = n % B := by rw [Nat.add_sub_cancel_left]
  refine ⟨rfl, Nat.div_mul_le_self _ _, ?_, ?_⟩
  · simp only [lane_view_bytes, lane_n_blocks]
    exact key _ _
  · simp only [lane_view_bytes, lane_n_blocks]
    rw [key fileBytes (block_itemsize nffte fftlen nbchan)]
    exact Nat.mod_lt _ hpos

/- ===================== Spectrum.average (read/spectrum.py) ================= -/

/-- `SpecData.tmean()` with default bounds (a full-range time mask followed
by `np.mean(..., axis=0)`): the time-mean of each frequency column of a 2-D
array with `ntimes` rows. -/
def tmean_row (data : ℕ → ℕ → ℚ) (ntimes : ℕ) : ℕ → ℚ :=
  fun j => (∑ i ∈ Finset.range ntimes, data i j) / (ntimes : ℚ)

/-- `SpecData.frebin(bins)` slice boundaries:
`np.linspace(0, freq.size, bins + 1, True).astype(int)`, i.e.
`slices[k] = floor(k * nfreq / bins)`. -/
def frebin_slice (nfreq bins k : ℕ) : ℕ := k * nfreq / bins

/-- `SpecData.frebin(bins)` cell `k`:
`np.add.reduceat(self.amp, slices[:-1]) / counts` — the mean of the
amplitudes in the equal-count slice `[slices[k], slices[k+1])`. -/
def frebin_row (amp : ℕ → ℚ) (nfreq bins : ℕ) : ℕ → ℚ :=
  fun k =>
    (∑ j ∈ Finset.Ico (frebin_slice nfreq bins k)
        (frebin_slice nfreq bins (k + 1)), amp j) /
      ((frebin_slice nfreq bins (k + 1) - frebin_slice nfreq bins k : ℕ) : ℚ)

/-- The `while start < stop - dt` loop of `Spectrum.average`, writing
`avg_data[i, :] = cell i` then advancing `i += 1`, `start += dt`.  The
Python loop carries no fuel; here `fuel` bounds the iterations and the
caller passes `ntimes`, which exceeds the iteration count whenever
`dt > 0`: iteration `i` runs iff `start0 + i*dt < stop - dt`, so at most
`ceil((stop - start0)/dt) - 1` iterations occur. -/
def spectrum_average_loop (cell : ℕ → ℕ → ℚ) (stop dt : ℚ) :
    ℕ → ℚ → ℕ → (ℕ → ℕ → ℚ) → (ℕ → ℕ → ℚ)
  | 0, _, _, acc => acc
  | fuel + 1, start, i, acc =>
    if start < stop - dt then
      spectrum_average_loop cell stop dt fuel (start + dt) (i + 1)
        (Function.update acc i (cell i))
    else acc

/-- `Spectrum.average(stokes, df, dt, ...)` on one synthetic observation:
`slab i` is the raw 2-D array that `select` returns on the i-th `dt`-wide
time slab (`slabNt` rows, `slabNf` frequency samples).  The result is
`(ntimes, nfreqs, avg_data)` with `ntimes = int(np.ceil((stop-start)/dt))`
rows and `nfreqs = int((f1-f0)/df)` columns preallocated as `np.zeros`, and
each written row is `tmean` followed by `frebin` of its slab. -/
def spectrum_average (slab : ℕ → ℕ → ℕ → ℚ) (slabNt slabNf : ℕ)
    (start stop f0 f1 dt df : ℚ) : ℕ × ℕ × (ℕ → ℕ → ℚ) :=
  let ntimes := (⌈(stop - start) / dt⌉).toNat
  let nfreqs := (⌊(f1 - f0) / df⌋).toNat
  let cell := fun i => frebin_row (tmean_row (slab i) slabNt) slabNf nfreqs
  (ntimes, nfreqs,
    spectrum_average_loop cell stop dt ntimes start 0 (fun _ _ => 0))

/-- On the constant-4 observation, every reduced cell is 4. -/
theorem frebin_tmean_const (j : ℕ) :
    frebin_row (tmean_row (fun _ _ => (4 : ℚ)) 1) 10 10 j = 4 := by
  have hs : ∀ k, frebin_slice 10 10 k = k := fun k => by
    simp only [frebin_slice]
    omega
  simp [frebin_row, tmean_row, hs, Nat.Ico_succ_singleton]

/-- Claim C6, the code evaluated at the failing input: `Spectrum.average`
with `dt = 1 s`, `df = 1 MHz` over a 10 s, 10 MHz constant-valued
observation preallocates the claimed `ceil(10/1) x floor(10/1) = 10 x 10`
output and processes slabs in increasing time order, but the loop
`while start < stop - dt` runs only 9 times: rows 0..8 hold the reduced
value 4 while row 9 is never written and keeps its `np.zeros` value 0, even
though the reference time-mean/frequency-rebin of the row-9 sub-region
is 4. -/
theorem spectrum_average_dead_last_row :
    (spectrum_average (fun _ _ _ => 4) 1 10 0 10 0 10 1 1).1 = 10 ∧
      (spectrum_average (fun _ _ _ => 4) 1 10 0 10 0 10 1 1).2.1 = 10 ∧
      (spectrum_average (fun _ _ _ => 4) 1 10 0 10 0 10 1 1).2.2 0 0 = 4 ∧
      (spectrum_average (fun _ _ _ => 4) 1 10 0 10 0 10 1 1).2.2 8 9 = 4 ∧
      (spectrum_average (fun _ _ _ => 4) 1 10 0 10 0 10 1 1).2.2 9 0 = 0 ∧
      frebin_row (tmean_row ((fun _ _ _ => (4 : ℚ)) 9) 1) 10 10 0 = 4 := by
  have htn : Int.toNat 10 = 10 := rfl
  refine ⟨?_, ?_, ?_, ?_, ?_, frebin_tmean_const 0⟩ <;>
    norm_num [spectrum_average, spectrum_average_loop, Function.update,
      htn, frebin_tmean_const]
